import Mathlib

/-!
Verification development for the core data-munging logic of
napari-nd2-folder-viewer (src/napari_nd2_folder_viewer/_widget.py).

The Python functions are shallowly embedded over lists and exact rationals:

* numpy/dask arrays along one distinguished axis become lists of slices,
  each slice a (flattened) list of rationals;
* numpy dtypes become an enumerated `Dtype` with numpy's promotion rule;
* operations that raise in Python (negative array extents, failed tuple
  destructuring, stacking an empty sequence) return `none`;
* boolean-mask indexing `nums[mask]` is embedded as filtering the index
  range by the mask predicate, and fancy-index assignment `arr[idxs] = vals`
  as a fold of single-position writes.
-/

/-- Numpy dtypes that occur in this development.  `uint16` is the dtype the
    source hard-codes for the trailing zero block of the z padding. -/
inductive Dtype where
  | uint8 | uint16 | uint32 | int16 | int32 | int64 | float32 | float64
deriving DecidableEq, Repr

/-- Size of the dtype in bytes. -/
def Dtype.size : Dtype → ℕ
  | .uint8 => 1 | .uint16 => 2 | .uint32 => 4
  | .int16 => 2 | .int32 => 4 | .int64 => 8
  | .float32 => 4 | .float64 => 8

/-- Whether the dtype is a floating-point kind. -/
def Dtype.isFloat : Dtype → Bool
  | .float32 | .float64 => true
  | _ => false

/-- Whether the dtype is a signed-integer kind. -/
def Dtype.isSigned : Dtype → Bool
  | .int16 | .int32 | .int64 => true
  | _ => false

/-- Smallest signed dtype of at least the given byte size (capped at int64). -/
def signedOfSize (n : ℕ) : Dtype :=
  if n ≤ 2 then .int16 else if n ≤ 4 then .int32 else .int64

/-- Smallest unsigned dtype of at least the given byte size (capped at uint32). -/
def unsignedOfSize (n : ℕ) : Dtype :=
  if n ≤ 1 then .uint8 else if n ≤ 2 then .uint16 else .uint32

/-- Float dtype of the given byte size. -/
def floatOfSize (n : ℕ) : Dtype :=
  if n ≤ 4 then .float32 else .float64

/-- numpy's `promote_types` on the dtypes above: same kind takes the larger
    size; unsigned against signed goes to a signed type large enough for
    both; float against integer stays float32 only if the integer fits. -/
def promoteTypes (a b : Dtype) : Dtype :=
  if a = b then a
  else if a.isFloat && b.isFloat then floatOfSize (max a.size b.size)
  else if a.isFloat || b.isFloat then
    let f := if a.isFloat then a else b
    let i := if a.isFloat then b else a
    if f = .float64 then .float64
    else if i.size ≤ 2 then .float32 else .float64
  else if a.isSigned = b.isSigned then
    if a.isSigned then signedOfSize (max a.size b.size)
    else unsignedOfSize (max a.size b.size)
  else
    let s := if a.isSigned then a else b
    let u := if a.isSigned then b else a
    if u.size < s.size then s else signedOfSize (2 * u.size)

/-- numpy's `result_type` over a list of dtypes, as used by
    `da.concatenate`: fold the binary promotion over the operands. -/
def resultType : List Dtype → Dtype
  | [] => .float64
  | d :: ds => ds.foldl promoteTypes d

/-- A file's lazy array with no z axis, viewed along the (absent) z axis:
    the whole pixel content is one flattened block, plus the array dtype. -/
structure Img5 where
  content : List ℚ
  dtype : Dtype
deriving DecidableEq, Repr

/-- An array with a z axis (axis 2 of the canonical (t, m, z, c, y, x)
    layout), viewed as its list of z slices plus the array dtype. -/
structure Img6 where
  zslices : List (List ℚ)
  dtype : Dtype
deriving DecidableEq, Repr

/-- An all-zero slice of the given flattened length. -/
def zeroSliceOf (n : ℕ) : List ℚ := List.replicate n 0

/-- Embeds `da.zeros_like`: same slice structure, zero content, same dtype. -/
def zerosLike6 (a : Img6) : Img6 :=
  ⟨a.zslices.map (fun s => List.replicate s.length (0 : ℚ)), a.dtype⟩

/-- Embeds `da.concatenate(parts, axis=2)`: slices in sequence, and the
    result dtype is numpy's promotion over the operands' dtypes. -/
def concatZ (parts : List Img6) : Img6 :=
  ⟨(parts.map Img6.zslices).flatten, resultType (parts.map Img6.dtype)⟩

/-- Embeds the `zlen_ == 0` branch of `nd2_file_to_dask` (z-axis padding):
    `img = da.expand_dims(img, axis=2)` gives a single real z slice;
    `first_img = da.zeros_like(img)` is one zero slice of the array dtype;
    `last_imgs = da.zeros(shape with shape[2] = zlen - 2, dtype=np.uint16)`
    raises for a negative extent, embedded as `none`;
    finally `da.concatenate([first_img, img, last_imgs], axis=2)`. -/
def nd2_pad_z (img5 : Img5) (zlen : ℕ) : Option Img6 :=
  let img : Img6 := ⟨[img5.content], img5.dtype⟩
  let first_img : Img6 := zerosLike6 img
  let lastZ : ℤ := (zlen : ℤ) - 2
  if lastZ < 0 then none
  else
    let last_imgs : Img6 :=
      ⟨List.replicate lastZ.toNat (zeroSliceOf img5.content.length), Dtype.uint16⟩
    some (concatZ [first_img, img, last_imgs])

/-- Modelled from the spec: the centering rule claimed for the z padding,
    with the real data preceded by `(zlen - 1) / 2` zero slices and the
    remainder of the `zlen - 1` zero slices trailing.  Stated for
    comparison with the padding the source actually performs. -/
def spec_centered_pad (content : List ℚ) (zlen : ℕ) : List (List ℚ) :=
  List.replicate ((zlen - 1) / 2) (zeroSliceOf content.length) ++ [content] ++
    List.replicate (zlen - 1 - (zlen - 1) / 2) (zeroSliceOf content.length)

/-- Adds the scalar `c` to every cell of a (position × z) slice, embedding
    the broadcast `times + add_time[:, np.newaxis, np.newaxis]` per slice. -/
def addScalar (c : ℚ) (s : List (List ℚ)) : List (List ℚ) :=
  s.map (fun row => row.map (fun v => v + c))

/-- Embeds `np.all(np.diff(times, axis=0) == 0.0)`: all successive time
    slices are elementwise identical. -/
def allDiffZero : List (List (List ℚ)) → Bool
  | a :: b :: rest => decide (b = a) && allDiffZero (b :: rest)
  | _ => true

/-- Embeds `test_nd2_timestamps`: when more than one timepoint exists
    (`times.shape[0] != 1`) and all successive time differences are zero,
    add `i * (periodMs / 1000 / (24 * 3600))` to every cell of timepoint
    `i` (the device period in milliseconds converted to fractional days);
    otherwise return the tensor unchanged. -/
def test_nd2_timestamps (periodMs : ℚ) (times : List (List (List ℚ))) :
    List (List (List ℚ)) :=
  if times.length ≠ 1 ∧ allDiffZero times = true then
    List.zipWith (fun (i : ℕ) s => addScalar ((i : ℚ) * (periodMs / 1000 / (24 * 3600))) s)
      (List.range times.length) times
  else times

/-- A file's lazy array viewed along the channel axis (axis -3): one
    flattened plane per channel, plus the array dtype. -/
structure CImg where
  planes : List (List ℚ)
  dtype : Dtype
deriving DecidableEq, Repr

/-- Embeds `insert_nd2_file_channels`: for each canonical channel name,
    take the file's plane at the first index of that name in the file's
    own channel list (`channel_names_.index(cn)`), or a zero plane shaped
    like plane 0 (`da.zeros_like(img_[..., 0, :, :])`) when the name is
    absent; `da.stack(imgs, axis=-3)` of the collected planes.  Indexing a
    missing plane and stacking an empty list raise, embedded as `none`. -/
def insert_nd2_file_channels (img : CImg) (channel_names channel_names2 : List String) :
    Option CImg :=
  match channel_names.mapM (fun cn =>
      match channel_names2.findIdx? (fun x => x == cn) with
      | some j => img.planes[j]?
      | none => (img.planes[0]?).map (fun p => List.replicate p.length (0 : ℚ))) with
  | none => none
  | some planes => if planes.isEmpty then none else some ⟨planes, img.dtype⟩

/-- Embeds the time-axis insertion condition of `nd2_file_to_dask`:
    `tlen_ == 0 or (tlen_ == 1 and zlen_ == 0 and img.ndim == 4)
     or (tlen_ == 1 and zlen_ != 0 and img.ndim == 5)`. -/
def insertTimeCond (tlen_ zlen_ ndim : ℕ) : Bool :=
  tlen_ == 0 || (tlen_ == 1 && zlen_ == 0 && ndim == 4) ||
    (tlen_ == 1 && zlen_ != 0 && ndim == 5)

/-- Embeds `img = da.expand_dims(img, axis=0)` under the condition above,
    acting on the array's shape. -/
def normalizeTimeShape (tlen_ zlen_ : ℕ) (shape : List ℕ) : List ℕ :=
  if insertTimeCond tlen_ zlen_ shape.length then 1 :: shape else shape

/-- Arity of the coordinate tuple `_coords_from_seq_index` yields for a
    file: position always, plus time and z when present. -/
def timesArity (tlen_ zlen_ : ℕ) : ℕ :=
  1 + (if tlen_ = 0 then 0 else 1) + (if zlen_ = 0 then 0 else 1)

/-- Which tensor cells `(a, b, c)` a frame with coordinate tuple `co`
    addresses, matching the four assignment statements of
    `nd2_file_to_dask`: absent axes are sliced in full. -/
def addressedB (tlen_ zlen_ : ℕ) (co : List ℕ) (a b c : ℕ) : Bool :=
  match tlen_, zlen_, co with
  | 0, 0, [k] => b == k
  | 0, _ + 1, [k, l] => b == k && c == l
  | _ + 1, 0, [j, k] => a == j && b == k
  | _ + 1, _ + 1, [j, k, l] => a == j && b == k && c == l
  | _, _, _ => false

/-- One iteration of the timestamp loops of `nd2_file_to_dask`: the four
    branches `tmp_times[:, k, :] = v`, `tmp_times[:, k, l] = v`,
    `tmp_times[j, k, :] = v`, `tmp_times[j, k, l] = v`, selected by which
    axes the file has; a coordinate tuple of the wrong arity fails to
    destructure in Python, embedded as `none`. -/
def assignFrame (tlen_ zlen_ : ℕ) (co : List ℕ) (v : ℚ) (T : ℕ → ℕ → ℕ → ℚ) :
    Option (ℕ → ℕ → ℕ → ℚ) :=
  match tlen_, zlen_, co with
  | 0, 0, [k] => some (fun a b c => if b = k then v else T a b c)
  | 0, _ + 1, [k, l] => some (fun a b c => if b = k ∧ c = l then v else T a b c)
  | _ + 1, 0, [j, k] => some (fun a b c => if a = j ∧ b = k then v else T a b c)
  | _ + 1, _ + 1, [j, k, l] =>
      some (fun a b c => if a = j ∧ b = k ∧ c = l then v else T a b c)
  | _, _, _ => none

/-- Embeds the timestamp-reconstruction loop of `nd2_file_to_dask`: start
    from `np.zeros((tlen, mlen, zlen))` and process every frame index
    `i < frameCount` in order, where `coords` is the reader's
    `_coords_from_seq_index` and `ts i` the frame's recorded
    `absoluteJulianDayNumber`. -/
def nd2_times (tlen_ zlen_ frameCount : ℕ) (coords : ℕ → List ℕ) (ts : ℕ → ℚ) :
    Option (ℕ → ℕ → ℕ → ℚ) :=
  (List.range frameCount).foldlM
    (fun T i => assignFrame tlen_ zlen_ (coords i) (ts i) T) (fun _ _ _ => 0)

/-- Embeds negating the x coordinates when `invert_x` is set
    (`pos[:, 0] *= -1`). -/
def posAfterInvert (pos : List (ℚ × ℚ)) (invert_x : Bool) : List (ℚ × ℚ) :=
  if invert_x then pos.map (fun p => (-p.1, p.2)) else pos

/-- The x coordinates of the (possibly x-inverted) positions. -/
def posXs (pos : List (ℚ × ℚ)) (invert_x : Bool) : List ℚ :=
  (posAfterInvert pos invert_x).map Prod.fst

/-- The y coordinates of the (possibly x-inverted) positions. -/
def posYs (pos : List (ℚ × ℚ)) (invert_x : Bool) : List ℚ :=
  (posAfterInvert pos invert_x).map Prod.snd

/-- Embeds `pairwise_distances(pos[:, 0][:, np.newaxis]).flatten()`: all
    absolute differences of x coordinates, diagonal and both orders
    included. -/
def pairwiseDists (xs : List ℚ) : List ℚ :=
  xs.flatMap (fun a => xs.map (fun b => |a - b|))

/-- Embeds the window filter `np.logical_and(dists > 2000, dists < 6000)`
    followed by selecting those distances. -/
def nnDists (xs : List ℚ) : List ℚ :=
  (pairwiseDists xs).filter (fun d => decide (2000 < d) && decide (d < 6000))

/-- Embeds `nearest_neighbors.mean()`: the mean of the windowed distances,
    `none` when there are none (numpy yields nan and poisons everything
    downstream). -/
def meanDiff? (xs : List ℚ) : Option ℚ :=
  let nn := nnDists xs
  if nn.isEmpty then none else some (nn.sum / nn.length)

/-- Embeds `x_pos.min()` (only evaluated when positions exist). -/
def minX (xs : List ℚ) : ℚ := xs.min?.getD 0

/-- Lower edge of lane `i`'s tolerance band:
    `min_x + i * mean_diff - mean_diff / 3`. -/
def laneLo (xs : List ℚ) (mu : ℚ) (i : ℕ) : ℚ := minX xs + i * mu - mu / 3

/-- Upper edge of lane `i`'s tolerance band:
    `min_x + i * mean_diff + mean_diff / 3`. -/
def laneHi (xs : List ℚ) (mu : ℚ) (i : ℕ) : ℚ := minX xs + i * mu + mu / 3

/-- Embeds `nums[tmp_inds]` for lane `i`: the raw position indices whose x
    coordinate falls strictly inside the lane's band, in index order
    (boolean-mask indexing is index-range filtering). -/
def laneMembers (xs : List ℚ) (mu : ℚ) (i : ℕ) : List ℕ :=
  (List.range xs.length).filter
    (fun p => decide (laneLo xs mu i < xs.getD p 0) && decide (xs.getD p 0 < laneHi xs mu i))

/-- Embeds `pos[tmp_inds, 1]`: the y coordinates of lane `i`'s members. -/
def laneYs (xs ys : List ℚ) (mu : ℚ) (i : ℕ) : List ℚ :=
  (laneMembers xs mu i).map (fun p => ys.getD p 0)

/-- Embeds `np.argsort(y_pos)`: the local indices `0 .. n-1` ordered by
    ascending key value. -/
def argsort (keys : List ℚ) : List ℕ :=
  (List.range keys.length).insertionSort (fun a b => keys.getD a 0 ≤ keys.getD b 0)

/-- Embeds `sort_inds`, reversed when `invert_y` (`sort_inds[::-1]`). -/
def laneSortInds (keys : List ℚ) (invert_y : Bool) : List ℕ :=
  if invert_y then (argsort keys).reverse else argsort keys

/-- Embeds fancy indexing `l[idx]`. -/
def gather {α : Type} (l : List α) (idx : List ℕ) (d : α) : List α :=
  idx.map (fun i => l.getD i d)

/-- Embeds `nums[tmp_inds][sort_inds]` for lane `i`: the lane's member
    indices in sorted-row order. -/
def lanePerm (xs ys : List ℚ) (mu : ℚ) (invert_y : Bool) (i : ℕ) : List ℕ :=
  gather (laneMembers xs mu i) (laneSortInds (laneYs xs ys mu i) invert_y) 0

/-- Embeds `np.concatenate(total_sort)`: the lane contributions for the
    ten candidate lanes, in lane order. -/
def gridPerm (xs ys : List ℚ) (mu : ℚ) (invert_y : Bool) : List ℕ :=
  ((List.range 10).map (lanePerm xs ys mu invert_y)).flatten

/-- The label text the source builds for lane `k` and row `j`, both
    1-based: the f-string `f"ch{i+1}-{j}"`. -/
def mkLabel (k j : ℕ) : String := "ch" ++ toString k ++ "-" ++ toString j

/-- Modelled from the spec: the label form `lane{k}-{row}` the spec
    claims for position labels, for comparison with `mkLabel`. -/
def spec_lane_label (k j : ℕ) : String := "lane" ++ (toString k ++ ("-" ++ toString j))

/-- Embeds fancy-index assignment `arr[idxs] = vals`: successive
    single-position writes (out-of-range writes are dropped, duplicate
    indices keep the last write, as in numpy). -/
def scatterIdx {α : Type} (arr : List α) (idx : List ℕ) (vals : List α) : List α :=
  (idx.zip vals).foldl (fun a p => a.set p.1 p.2) arr

/-- Embeds building `tmp_channel_names` for lane `i`:
    `tmp_channel_names[sort_inds] = [f"ch{i+1}-{j}" for j in range(1, n+1)]`
    starting from `np.empty(n, dtype=object)` (all `none`). -/
def laneLocalLabels (count : ℕ) (sortInds : List ℕ) (i : ℕ) : List (Option String) :=
  scatterIdx (List.replicate count none) sortInds
    ((List.range count).map (fun j => some (mkLabel (i + 1) (j + 1))))

/-- Embeds one lane iteration's effect on the global label array:
    `channel_names[tmp_inds] = tmp_channel_names`, i.e. writing the lane's
    local labels at the mask's true positions in order. -/
def applyLane (xs ys : List ℚ) (mu : ℚ) (invert_y : Bool)
    (labels : List (Option String)) (i : ℕ) : List (Option String) :=
  let mem := laneMembers xs mu i
  let si := laneSortInds (laneYs xs ys mu i) invert_y
  scatterIdx labels mem (laneLocalLabels mem.length si i)

/-- The global label array after the ten lane iterations, starting from
    `np.empty(pos.shape[0], dtype=object)` (all `none`). -/
def gridLabels (xs ys : List ℚ) (mu : ℚ) (invert_y : Bool) : List (Option String) :=
  (List.range 10).foldl (applyLane xs ys mu invert_y) (List.replicate xs.length none)

/-- The observable outputs of `get_position_names_and_inds` the claims are
    about: the per-position label array and the concatenated sort
    permutation. -/
structure GridResult where
  labels : List (Option String)
  perm : List ℕ
deriving DecidableEq, Repr

/-- Embeds `get_position_names_and_inds`: invert x if configured, estimate
    the lane pitch as the mean of the windowed pairwise x distances (nan,
    i.e. `none`, when no distance falls in the window), then build the
    label array and position permutation over the ten candidate lanes. -/
def get_position_names_and_inds (pos : List (ℚ × ℚ)) (invert_x invert_y : Bool) :
    Option GridResult :=
  match meanDiff? (posXs pos invert_x) with
  | none => none
  | some mu =>
      some ⟨gridLabels (posXs pos invert_x) (posYs pos invert_x) mu invert_y,
            gridPerm (posXs pos invert_x) (posYs pos invert_x) mu invert_y⟩

/-! Lemmas and theorems. -/

theorem nd2_pad_z_eq (img5 : Img5) (zlen : ℕ) (h : 2 ≤ zlen) :
    nd2_pad_z img5 zlen =
      some ⟨zeroSliceOf img5.content.length :: img5.content ::
              List.replicate (zlen - 2) (zeroSliceOf img5.content.length),
            promoteTypes img5.dtype Dtype.uint16⟩ := by
  have h0 : ¬ ((zlen : ℤ) - 2 < 0) := by omega
  have ht : ((zlen : ℤ) - 2).toNat = zlen - 2 := by omega
  simp only [nd2_pad_z, h0, if_false, ht]
  congr 1
  unfold concatZ zerosLike6 resultType zeroSliceOf
  simp [promoteTypes]

theorem nd2_pad_z_isSome_iff (img5 : Img5) (zlen : ℕ) :
    (nd2_pad_z img5 zlen).isSome = true ↔ 2 ≤ zlen := by
  unfold nd2_pad_z
  by_cases h : (zlen : ℤ) - 2 < 0
  · simp only [h, if_true]
    simp
    omega
  · simp only [h, if_false]
    simp
    omega

/-- Claim C1, counterexample: at canonical z length 5 the code places the
    real slice at z index 1 (one zero slice before, three after), while the
    spec's centering rule puts it at index 2; so the claimed centering does
    not hold. -/
theorem nd2_pad_z_not_centered :
    (nd2_pad_z ⟨[1], Dtype.uint16⟩ 5).map Img6.zslices =
        some [[0], [1], [0], [0], [0]] ∧
      (nd2_pad_z ⟨[1], Dtype.uint16⟩ 5).map Img6.zslices ≠
        some (spec_centered_pad [1] 5) := by
  decide

/-- Claim C1, amended: for canonical z length at least 2, a file with no z
    axis is padded to exactly `zlen` z slices with the real data at z index
    1 (not centered: one zero slice before it, `zlen - 2` after it) and
    every other z slice zero. -/
theorem nd2_pad_z_real_data_at_one (img5 : Img5) (zlen : ℕ) (h : 2 ≤ zlen) :
    ∃ out, nd2_pad_z img5 zlen = some out ∧
      out.zslices.length = zlen ∧
      out.zslices.getD 1 [] = img5.content ∧
      ∀ i, i < zlen → i ≠ 1 → out.zslices.getD i [] = zeroSliceOf img5.content.length := by
  refine ⟨_, nd2_pad_z_eq img5 zlen h, ?_, rfl, ?_⟩
  · simp only [List.length_cons, List.length_replicate]
    omega
  · intro i hi h1
    match i with
    | 0 => rfl
    | 1 => exact absurd rfl h1
    | n + 2 =>
      simp only [List.getD_cons_succ]
      have hn : n < zlen - 2 := by omega
      rw [List.getD_eq_getElem _ _ (by simpa using hn)]
      simp

/-- Claim C1, witness for the amended theorem at a concrete input. -/
theorem nd2_pad_z_real_data_at_one_witness :
    ∃ out, nd2_pad_z ⟨[2], Dtype.uint8⟩ 4 = some out ∧
      out.zslices.length = 4 ∧
      out.zslices.getD 1 [] = [2] ∧
      ∀ i, i < 4 → i ≠ 1 → out.zslices.getD i [] = zeroSliceOf ([(2 : ℚ)]).length :=
  nd2_pad_z_real_data_at_one ⟨[2], Dtype.uint8⟩ 4 (by decide)

/-- Claim C9: padding a z-less file succeeds exactly when the canonical z
    length is at least 2, because the trailing zero block is built with z
    extent `zlen - 2`, and a negative extent makes `da.zeros` raise. -/
theorem nd2_pad_z_succeeds_iff (img5 : Img5) (zlen : ℕ) :
    (nd2_pad_z img5 zlen).isSome = true ↔ 2 ≤ zlen :=
  nd2_pad_z_isSome_iff img5 zlen

/-- Claim C10: for canonical z length at least 2, the padded stack's dtype
    is numpy's promotion of the source dtype with uint16 (the hard-coded
    dtype of the trailing zero block). -/
theorem nd2_pad_z_dtype_promotes (img5 : Img5) (zlen : ℕ) (h : 2 ≤ zlen) :
    (nd2_pad_z img5 zlen).map Img6.dtype = some (promoteTypes img5.dtype Dtype.uint16) := by
  rw [nd2_pad_z_eq img5 zlen h]
  rfl

/-- Claim C10, witness: a uint8 source is promoted to uint16, so the
    padded dtype differs from the source dtype. -/
theorem nd2_pad_z_dtype_promotes_witness :
    (nd2_pad_z ⟨[1], Dtype.uint8⟩ 3).map Img6.dtype =
        some (promoteTypes Dtype.uint8 Dtype.uint16) ∧
      promoteTypes Dtype.uint8 Dtype.uint16 ≠ Dtype.uint8 :=
  ⟨nd2_pad_z_dtype_promotes ⟨[1], Dtype.uint8⟩ 3 (by decide), by decide⟩

theorem allDiffZero_getD :
    ∀ (l : List (List (List ℚ))), allDiffZero l = true →
      ∀ i, i < l.length → l.getD i [] = l.getD 0 []
  | [], _, i, hi => by simp at hi
  | [a], _, i, hi => by
      have h0 : i = 0 := by simpa using hi
      rw [h0]
  | a :: b :: rest, h, i, hi => by
      rw [allDiffZero] at h
      simp only [Bool.and_eq_true, decide_eq_true_eq] at h
      match i with
      | 0 => rfl
      | i + 1 =>
        have := allDiffZero_getD (b :: rest) h.2 i (by simpa using Nat.lt_of_succ_lt_succ hi)
        simp only [List.getD_cons_succ]
        rw [this]
        simp [h.1]

theorem test_applied_getD (periodMs : ℚ) (times : List (List (List ℚ)))
    (h1 : 1 < times.length) (h2 : allDiffZero times = true) :
    ∀ i, i < times.length →
      (test_nd2_timestamps periodMs times).getD i [] =
        addScalar ((i : ℚ) * (periodMs / 1000 / (24 * 3600))) (times.getD i []) := by
  intro i hi
  unfold test_nd2_timestamps
  rw [if_pos ⟨by omega, h2⟩]
  have hlen : i < (List.zipWith
      (fun (j : ℕ) s => addScalar ((j : ℚ) * (periodMs / 1000 / (24 * 3600))) s)
      (List.range times.length) times).length := by
    rw [List.length_zipWith, List.length_range]
    omega
  rw [List.getD_eq_getElem _ _ hlen, List.getElem_zipWith, List.getElem_range,
    List.getD_eq_getElem _ _ hi]

theorem test_not_applied (periodMs : ℚ) (times : List (List (List ℚ)))
    (h : ¬ (1 < times.length ∧ allDiffZero times = true)) :
    test_nd2_timestamps periodMs times = times := by
  unfold test_nd2_timestamps
  by_cases hc : times.length ≠ 1 ∧ allDiffZero times = true
  · rw [if_pos hc]
    have h0 : times.length = 0 := by
      rcases Nat.lt_or_ge 1 times.length with h1 | h1
      · exact absurd ⟨h1, hc.2⟩ h
      · omega
    rw [List.length_eq_zero.mp h0]
    rfl
  · rw [if_neg hc]

theorem test_length (periodMs : ℚ) (times : List (List (List ℚ))) :
    (test_nd2_timestamps periodMs times).length = times.length := by
  unfold test_nd2_timestamps
  by_cases hc : times.length ≠ 1 ∧ allDiffZero times = true
  · rw [if_pos hc, List.length_zipWith, List.length_range]
    omega
  · rw [if_neg hc]

/-- Claim C2: the duplicate-timestamp correction adds
    `i * (periodMs / 1000 / (24 * 3600))` uniformly to timepoint `i` when
    more than one timepoint exists and all successive time differences are
    zero, and returns the tensor unchanged otherwise. -/
theorem test_nd2_timestamps_spec (periodMs : ℚ) (times : List (List (List ℚ))) :
    (1 < times.length → allDiffZero times = true →
      ∀ i, i < times.length →
        (test_nd2_timestamps periodMs times).getD i [] =
          addScalar ((i : ℚ) * (periodMs / 1000 / (24 * 3600))) (times.getD i [])) ∧
    (¬ (1 < times.length ∧ allDiffZero times = true) →
      test_nd2_timestamps periodMs times = times) :=
  ⟨fun h1 h2 => test_applied_getD periodMs times h1 h2,
   fun h => test_not_applied periodMs times h⟩

/-- Claim C2, witness: a two-timepoint constant tensor gets timepoint 1
    shifted by one period in fractional days. -/
theorem test_nd2_timestamps_spec_witness :
    (test_nd2_timestamps 86400000 [[[5]], [[5]]]).getD 1 [] =
      addScalar ((1 : ℚ) * (86400000 / 1000 / (24 * 3600)))
        (([[[(5 : ℚ)]], [[5]]] : List (List (List ℚ))).getD 1 []) :=
  (test_nd2_timestamps_spec 86400000 [[[5]], [[5]]]).1 (by decide) (by decide) 1 (by decide)

theorem addScalar_cell (x : ℚ) (s : List (List ℚ)) (r c : ℕ) (hr : r < s.length)
    (hc : c < (s.getD r []).length) :
    ((addScalar x s).getD r []).getD c 0 = (s.getD r []).getD c 0 + x := by
  unfold addScalar
  have hr2 : r < (s.map (fun row => row.map (fun v => v + x))).length := by simpa using hr
  rw [List.getD_eq_getElem _ _ hr2, List.getElem_map]
  have hsr : s.getD r [] = s[r] := List.getD_eq_getElem _ _ hr
  rw [hsr] at hc ⊢
  have hc2 : c < (s[r].map (fun v => v + x)).length := by simpa using hc
  rw [List.getD_eq_getElem _ _ hc2, List.getElem_map, List.getD_eq_getElem _ _ hc]

theorem allDiffZero_false_of_first_two :
    ∀ {l : List (List (List ℚ))}, 2 ≤ l.length →
      l.getD 1 [] ≠ l.getD 0 [] → allDiffZero l = false
  | [], h, _ => by simp at h
  | [_], h, _ => by simp at h
  | a :: b :: rest, _, hne => by
      rw [allDiffZero]
      have hd : decide (b = a) = false := decide_eq_false (by simpa using hne)
      rw [hd, Bool.false_and]

/-- Claim C8, counterexample: on a two-timepoint tensor with no positions
    the trigger holds and the correction is applied (returning the tensor
    unchanged), and re-applying the trigger check to the result again
    detects a duplicate run, contrary to the claim. -/
theorem test_nd2_timestamps_not_idempotent :
    (1 < ([[], []] : List (List (List ℚ))).length ∧
        allDiffZero ([[], []] : List (List (List ℚ))) = true) ∧
      test_nd2_timestamps 5 [[], []] = [[], []] ∧
      (1 < (test_nd2_timestamps 5 [[], []]).length ∧
        allDiffZero (test_nd2_timestamps 5 [[], []]) = true) := by
  decide

/-- Claim C8, amended: once the correction fired on a tensor with more than
    one timepoint, all time slices identical, a positive configured period
    and at least one cell per slice, re-applying the check detects no
    duplicate run (the corrected timestamps are strictly increasing
    cellwise along the time axis) and the correction returns the corrected
    tensor unchanged. -/
theorem test_nd2_timestamps_applied_idempotent (periodMs : ℚ)
    (times : List (List (List ℚ))) (hp : 0 < periodMs) (hlen : 1 < times.length)
    (hdiff : allDiffZero times = true) (hcell : (times.getD 0 []).flatten ≠ []) :
    allDiffZero (test_nd2_timestamps periodMs times) = false ∧
    test_nd2_timestamps periodMs (test_nd2_timestamps periodMs times) =
      test_nd2_timestamps periodMs times ∧
    (∀ i r c, i + 1 < times.length → r < (times.getD 0 []).length →
      c < ((times.getD 0 []).getD r []).length →
      (((test_nd2_timestamps periodMs times).getD i []).getD r []).getD c 0 <
        (((test_nd2_timestamps periodMs times).getD (i + 1) []).getD r []).getD c 0) := by
  have hq : (0 : ℚ) < periodMs / 1000 / (24 * 3600) := by positivity
  have hslice : ∀ i, i < times.length →
      (test_nd2_timestamps periodMs times).getD i [] =
        addScalar ((i : ℚ) * (periodMs / 1000 / (24 * 3600))) (times.getD 0 []) := by
    intro i hi
    rw [test_applied_getD periodMs times hlen hdiff i hi, allDiffZero_getD times hdiff i hi]
  have hcellval : ∀ i, i < times.length → ∀ rr cc, rr < (times.getD 0 []).length →
      cc < ((times.getD 0 []).getD rr []).length →
      (((test_nd2_timestamps periodMs times).getD i []).getD rr []).getD cc 0 =
        ((times.getD 0 []).getD rr []).getD cc 0 +
          (i : ℚ) * (periodMs / 1000 / (24 * 3600)) := by
    intro i hi rr cc hrr hcc
    rw [hslice i hi, addScalar_cell _ _ _ _ hrr hcc]
  obtain ⟨row, hrowmem, hrowne⟩ : ∃ row ∈ times.getD 0 [], row ≠ [] := by
    by_contra hco
    push_neg at hco
    exact hcell (List.flatten_eq_nil_iff.mpr hco)
  obtain ⟨r, hr, hrowEq⟩ := List.mem_iff_getElem.mp hrowmem
  have hr' : (times.getD 0 []).getD r [] = row := by
    rw [List.getD_eq_getElem _ _ hr, hrowEq]
  have hc0 : 0 < ((times.getD 0 []).getD r []).length := by
    rw [hr']
    exact List.length_pos.mpr hrowne
  have hstrict : ∀ i rr cc, i + 1 < times.length → rr < (times.getD 0 []).length →
      cc < ((times.getD 0 []).getD rr []).length →
      (((test_nd2_timestamps periodMs times).getD i []).getD rr []).getD cc 0 <
        (((test_nd2_timestamps periodMs times).getD (i + 1) []).getD rr []).getD cc 0 := by
    intro i rr cc h1 h2 h3
    rw [hcellval i (by omega) rr cc h2 h3, hcellval (i + 1) h1 rr cc h2 h3]
    have hmul : (i : ℚ) * (periodMs / 1000 / (24 * 3600)) <
        ((i + 1 : ℕ) : ℚ) * (periodMs / 1000 / (24 * 3600)) := by
      apply mul_lt_mul_of_pos_right _ hq
      exact_mod_cast Nat.lt_succ_self i
    push_cast at hmul ⊢
    linarith
  have hne : (test_nd2_timestamps periodMs times).getD 1 [] ≠
      (test_nd2_timestamps periodMs times).getD 0 [] := by
    intro heq
    have h01 := congrArg (fun t => (t.getD r []).getD 0 0) heq
    simp only at h01
    rw [hcellval 1 (by omega) r 0 hr hc0, hcellval 0 (by omega) r 0 hr hc0] at h01
    have hzero : (periodMs / 1000 / (24 * 3600)) = 0 := by
      push_cast at h01
      linarith
    exact absurd hzero (ne_of_gt hq)
  have hfalse : allDiffZero (test_nd2_timestamps periodMs times) = false := by
    apply allDiffZero_false_of_first_two _ hne
    rw [test_length]
    omega
  refine ⟨hfalse, ?_, hstrict⟩
  apply test_not_applied
  intro hcon
  rw [hfalse] at hcon
  exact absurd hcon.2 (by simp)

/-- Claim C8, witness for the amended theorem at a concrete input. -/
theorem test_nd2_timestamps_applied_idempotent_witness :
    allDiffZero (test_nd2_timestamps 86400000 [[[5]], [[5]]]) = false ∧
    test_nd2_timestamps 86400000 (test_nd2_timestamps 86400000 [[[5]], [[5]]]) =
      test_nd2_timestamps 86400000 [[[5]], [[5]]] ∧
    (∀ i r c, i + 1 < ([[[(5 : ℚ)]], [[5]]] : List (List (List ℚ))).length →
      r < (([[[(5 : ℚ)]], [[5]]] : List (List (List ℚ))).getD 0 []).length →
      c < ((([[[(5 : ℚ)]], [[5]]] : List (List (List ℚ))).getD 0 []).getD r []).length →
      (((test_nd2_timestamps 86400000 [[[5]], [[5]]]).getD i []).getD r []).getD c 0 <
        (((test_nd2_timestamps 86400000 [[[5]], [[5]]]).getD (i + 1) []).getD r []).getD c 0) :=
  test_nd2_timestamps_applied_idempotent 86400000 [[[5]], [[5]]]
    (by decide) (by decide) (by decide) (by decide)

theorem findIdx?_some_lt {α : Type} {p : α → Bool} {l : List α} {j : ℕ}
    (h : l.findIdx? p = some j) : j < l.length := by
  have hex : ∃ x ∈ l, p x = true := by
    by_contra hco
    push_neg at hco
    rw [List.findIdx?_eq_none_iff.mpr (fun x hx => by simpa using hco x hx)] at h
    exact Option.noConfusion h
  rw [List.findIdx?_eq_some_of_exists hex] at h
  obtain rfl : List.findIdx p l = j := Option.some.inj h
  exact List.findIdx_lt_length_of_exists hex

theorem mapM_option_spec {α β : Type} (f : α → Option β) :
    ∀ (l : List α), (∀ a ∈ l, (f a).isSome) →
      ∃ r, l.mapM f = some r ∧ r.length = l.length ∧
        ∀ i, i < l.length → ∀ (dX : α) (dY : β), f (l.getD i dX) = some (r.getD i dY) := by
  intro l
  induction l with
  | nil =>
    intro _
    refine ⟨[], rfl, by simp, ?_⟩
    intro i hi
    simp at hi
  | cons a t ih =>
    intro h
    obtain ⟨b, hb⟩ := Option.isSome_iff_exists.mp (h a (List.mem_cons_self a t))
    obtain ⟨r, hr, hrlen, hget⟩ := ih (fun x hx => h x (List.mem_cons_of_mem a hx))
    refine ⟨b :: r, ?_, by simp [hrlen], ?_⟩
    · rw [List.mapM_cons, hb, hr]
      rfl
    · intro i hi dX dY
      match i with
      | 0 => simpa using hb
      | i + 1 => simpa using hget i (by simpa using hi) dX dY

/-- Claim C4: channel reconciliation returns an array with one plane per
    canonical channel name, in canonical order: a name occurring in the
    file's channel list gets the file's plane at its first occurrence
    index, an absent name gets an all-zero plane shaped like plane 0, the
    dtype is preserved, and no failure occurs for a missing channel (the
    hypotheses record that the file has at least one channel plane, one
    plane per file channel name, and that the canonical list is
    nonempty). -/
theorem insert_nd2_file_channels_spec (img : CImg) (cns cns2 : List String)
    (h1 : cns ≠ []) (h2 : img.planes.length = cns2.length) (h3 : img.planes ≠ []) :
    ∃ out, insert_nd2_file_channels img cns cns2 = some out ∧
      out.planes.length = cns.length ∧
      out.dtype = img.dtype ∧
      ∀ i, i < cns.length →
        (∀ j, cns2.findIdx? (fun x => x == cns.getD i "") = some j →
          out.planes.getD i [] = img.planes.getD j []) ∧
        (cns.getD i "" ∉ cns2 →
          out.planes.getD i [] = List.replicate (img.planes.getD 0 []).length 0) := by
  have hsome : ∀ cn ∈ cns,
      ((fun cn => match cns2.findIdx? (fun x => x == cn) with
        | some j => img.planes[j]?
        | none => (img.planes[0]?).map
            (fun (p : List ℚ) => List.replicate p.length (0 : ℚ))) cn).isSome := by
    intro cn _
    cases hf : cns2.findIdx? (fun x => x == cn) with
    | some j =>
      have hj : j < img.planes.length := by
        rw [h2]
        exact findIdx?_some_lt hf
      simp [hf, List.getElem?_eq_getElem hj]
    | none =>
      have h0 : 0 < img.planes.length := List.length_pos.mpr h3
      simp [hf, List.getElem?_eq_getElem h0]
  obtain ⟨r, hr, hrlen, hget⟩ := mapM_option_spec _ cns hsome
  have hrne : r.isEmpty = false := by
    have : r ≠ [] := by
      intro hco
      rw [hco] at hrlen
      exact h1 (List.length_eq_zero.mp hrlen.symm)
    simpa [List.isEmpty_iff]
  refine ⟨⟨r, img.dtype⟩, ?_, hrlen, rfl, ?_⟩
  · unfold insert_nd2_file_channels
    rw [hr]
    simp [hrne]
  · intro i hi
    have hstep := hget i hi "" []
    constructor
    · intro j hj
      rw [hj] at hstep
      have hjlen : j < img.planes.length := by
        rw [h2]
        exact findIdx?_some_lt hj
      simp only [List.getElem?_eq_getElem hjlen] at hstep
      have := Option.some.inj hstep
      rw [List.getD_eq_getElem _ _ hjlen]
      exact this.symm
    · intro hnotmem
      have hnone : cns2.findIdx? (fun x => x == cns.getD i "") = none := by
        rw [List.findIdx?_eq_none_iff]
        intro x hx
        exact beq_eq_false_iff_ne.mpr (fun hxeq => hnotmem (hxeq ▸ hx))
      rw [hnone] at hstep
      have h0 : 0 < img.planes.length := List.length_pos.mpr h3
      simp only [List.getElem?_eq_getElem h0, Option.map_some'] at hstep
      have := Option.some.inj hstep
      rw [List.getD_eq_getElem _ _ h0]
      exact this.symm

/-- Claim C4, witness at a concrete input: canonical channels
    [DAPI, GFP, mRuby] against a file with channels [GFP, DAPI]. -/
theorem insert_nd2_file_channels_spec_witness :
    ∃ out, insert_nd2_file_channels ⟨[[7, 8], [5, 6]], Dtype.uint16⟩
        ["DAPI", "GFP", "mRuby"] ["GFP", "DAPI"] = some out ∧
      out.planes.length = (["DAPI", "GFP", "mRuby"] : List String).length ∧
      out.dtype = Dtype.uint16 ∧
      ∀ i, i < (["DAPI", "GFP", "mRuby"] : List String).length →
        (∀ j, (["GFP", "DAPI"] : List String).findIdx?
            (fun x => x == (["DAPI", "GFP", "mRuby"] : List String).getD i "") = some j →
          out.planes.getD i [] = ([[7, 8], [5, 6]] : List (List ℚ)).getD j []) ∧
        ((["DAPI", "GFP", "mRuby"] : List String).getD i "" ∉ (["GFP", "DAPI"] : List String) →
          out.planes.getD i [] =
            List.replicate (([[7, 8], [5, 6]] : List (List ℚ)).getD 0 []).length 0) :=
  insert_nd2_file_channels_spec ⟨[[7, 8], [5, 6]], Dtype.uint16⟩
    ["DAPI", "GFP", "mRuby"] ["GFP", "DAPI"] (by decide) (by decide) (by decide)

/-- Claim C5: under the consistency facts relating a file's array rank to
    which axes the reader kept (rank is 4 plus one per present time/z
    axis, a present time axis has recorded extent at least 1, an extent of
    at least 2 is never collapsed, the z axis is present exactly when its
    recorded extent is at least 1, and a present time axis is the leading
    shape entry), the length-1 time axis is inserted at the front exactly
    when the array has no time axis (absent, or degenerate and collapsed),
    and afterwards the leading axis always is a time axis of length
    `tlen = max(tlen_, 1)`. -/
theorem insertTimeCond_spec (tlen_ zlen_ : ℕ) (tPresent zPresent : Bool)
    (shape : List ℕ)
    (hrank : shape.length =
      4 + (if tPresent then 1 else 0) + (if zPresent then 1 else 0))
    (htp : tPresent = true → 1 ≤ tlen_)
    (htc : 2 ≤ tlen_ → tPresent = true)
    (hzp : zPresent = true ↔ 1 ≤ zlen_)
    (hhead : tPresent = true → shape.head? = some tlen_) :
    insertTimeCond tlen_ zlen_ shape.length = !tPresent ∧
    (normalizeTimeShape tlen_ zlen_ shape).head? =
      some (if tlen_ = 0 then 1 else tlen_) := by
  have hcond : insertTimeCond tlen_ zlen_ shape.length = !tPresent := by
    unfold insertTimeCond
    cases tPresent with
    | false =>
      cases zPresent with
      | false =>
        have hz : zlen_ = 0 := by
          rcases Nat.eq_zero_or_pos zlen_ with h | h
          · exact h
          · exact absurd (hzp.mpr h) (by simp)
        have ht : tlen_ ≤ 1 := by
          by_contra hco
          exact absurd (htc (by omega)) (by simp)
        simp only [hrank, hz]
        match tlen_, ht with
        | 0, _ => rfl
        | 1, _ => rfl
      | true =>
        have ht : tlen_ ≤ 1 := by
          by_contra hco
          exact absurd (htc (by omega)) (by simp)
        have hz : 1 ≤ zlen_ := hzp.mp rfl
        simp only [hrank]
        match tlen_, ht with
        | 0, _ => rfl
        | 1, _ =>
          simp only [Bool.not_false]
          have hz0 : (zlen_ != 0) = true := by
            simp only [bne_iff_ne, ne_eq]
            omega
          simp [hz0]
    | true =>
      have ht : 1 ≤ tlen_ := htp rfl
      cases zPresent with
      | false =>
        have hz : zlen_ = 0 := by
          rcases Nat.eq_zero_or_pos zlen_ with h | h
          · exact h
          · exact absurd (hzp.mpr h) (by simp)
        subst hz
        simp only [hrank]
        match tlen_, ht with
        | 1, _ => rfl
        | n + 2, _ => simp
      | true =>
        simp only [hrank]
        match tlen_, ht with
        | 1, _ => simp
        | n + 2, _ => simp
  refine ⟨hcond, ?_⟩
  unfold normalizeTimeShape
  rw [hcond]
  cases tPresent with
  | false =>
    have ht : tlen_ ≤ 1 := by
      by_contra hco
      exact absurd (htc (by omega)) (by simp)
    simp only [Bool.not_false, if_true]
    match tlen_, ht with
    | 0, _ => rfl
    | 1, _ => rfl
  | true =>
    have ht : 1 ≤ tlen_ := htp rfl
    simp only [Bool.not_true, Bool.false_eq_true, if_false]
    rw [hhead rfl, if_neg (by omega : ¬ tlen_ = 0)]

/-- Claim C5, witness: a file with a collapsed degenerate time axis
    (recorded time extent 1, no z axis, rank 4) gets the time axis
    inserted; after normalization the leading axis has length 1. -/
theorem insertTimeCond_spec_witness :
    insertTimeCond 1 0 ([6, 3, 512, 512] : List ℕ).length = !false ∧
    (normalizeTimeShape 1 0 [6, 3, 512, 512]).head? = some (if 1 = 0 then 1 else 1) :=
  insertTimeCond_spec 1 0 false false [6, 3, 512, 512] (by decide) (by decide)
    (by omega) (by decide) (by decide)

theorem assignFrame_eq (tlen_ zlen_ : ℕ) (co : List ℕ) (v : ℚ) (T : ℕ → ℕ → ℕ → ℚ)
    (hco : co.length = timesArity tlen_ zlen_) :
    assignFrame tlen_ zlen_ co v T =
      some (fun a b c => if addressedB tlen_ zlen_ co a b c = true then v else T a b c) := by
  cases tlen_ with
  | zero =>
    cases zlen_ with
    | zero =>
      obtain ⟨k, rfl⟩ := List.length_eq_one.mp (by simpa [timesArity] using hco)
      simp only [assignFrame, addressedB]
      congr 1
      funext a b c
      simp [beq_iff_eq]
    | succ z =>
      obtain ⟨k, l, rfl⟩ := List.length_eq_two.mp (by simpa [timesArity] using hco)
      simp only [assignFrame, addressedB]
      congr 1
      funext a b c
      simp [beq_iff_eq]
  | succ t =>
    cases zlen_ with
    | zero =>
      obtain ⟨j, k, rfl⟩ := List.length_eq_two.mp (by simpa [timesArity] using hco)
      simp only [assignFrame, addressedB]
      congr 1
      funext a b c
      simp [beq_iff_eq]
    | succ z =>
      obtain ⟨j, k, l, rfl⟩ := List.length_eq_three.mp (by simpa [timesArity] using hco)
      simp only [assignFrame, addressedB]
      congr 1
      funext a b c
      simp [beq_iff_eq, and_assoc]

theorem foldlM_assign (tlen_ zlen_ : ℕ) (coords : ℕ → List ℕ) (ts : ℕ → ℚ) :
    ∀ (l : List ℕ) (T0 : ℕ → ℕ → ℕ → ℚ),
      (∀ i ∈ l, (coords i).length = timesArity tlen_ zlen_) →
      ∃ T, l.foldlM (fun T i => assignFrame tlen_ zlen_ (coords i) (ts i) T) T0 = some T ∧
        ∀ a b c, T a b c =
          (((l.filter (fun i => addressedB tlen_ zlen_ (coords i) a b c)).getLast?).map
            ts).getD (T0 a b c) := by
  intro l
  induction l with
  | nil =>
    intro T0 _
    exact ⟨T0, rfl, fun a b c => rfl⟩
  | cons i l' ih =>
    intro T0 hl
    obtain ⟨T, hT, hTcell⟩ := ih
      (fun a b c => if addressedB tlen_ zlen_ (coords i) a b c = true then ts i else T0 a b c)
      (fun x hx => hl x (List.mem_cons_of_mem i hx))
    refine ⟨T, ?_, ?_⟩
    · rw [List.foldlM_cons, assignFrame_eq tlen_ zlen_ (coords i) (ts i) T0
        (hl i (List.mem_cons_self i l'))]
      simpa using hT
    · intro a b c
      rw [hTcell a b c, List.filter_cons]
      by_cases haddr : addressedB tlen_ zlen_ (coords i) a b c = true
      · simp only [haddr, if_true]
        cases hfl : l'.filter (fun x => addressedB tlen_ zlen_ (coords x) a b c) with
        | nil => simp
        | cons x xs =>
          rw [List.getLast?_cons_cons]
          obtain ⟨y, hy⟩ := Option.isSome_iff_exists.mp
            (List.getLast?_isSome.mpr (List.cons_ne_nil x xs))
          rw [hy]
          rfl
      · rw [if_neg haddr, if_neg haddr]

/-- Claim C3: the timestamp reconstruction succeeds whenever every frame's
    coordinate tuple has the arity matching the file's present axes (1, 2
    or 3), and every tensor cell then holds the recorded timestamp of the
    last frame addressing it, where a frame addresses exactly the cells
    that agree with it on the present coordinates and range over the full
    extent of each absent axis; unaddressed cells stay zero. -/
theorem nd2_times_spec (tlen_ zlen_ fc : ℕ) (coords : ℕ → List ℕ) (ts : ℕ → ℚ)
    (hc : ∀ i, i < fc → (coords i).length = timesArity tlen_ zlen_) :
    ∃ T, nd2_times tlen_ zlen_ fc coords ts = some T ∧
      ∀ a b c, T a b c =
        (((List.range fc).filter
            (fun i => addressedB tlen_ zlen_ (coords i) a b c)).getLast?.map ts).getD 0 := by
  obtain ⟨T, hT, hTcell⟩ := foldlM_assign tlen_ zlen_ coords ts (List.range fc)
    (fun _ _ _ => 0) (fun i hi => hc i (List.mem_range.mp hi))
  exact ⟨T, hT, hTcell⟩

/-- Claim C3, witness: a file with neither time nor z axis, two frames
    with 1-tuple (position) coordinates. -/
theorem nd2_times_spec_witness :
    ∃ T, nd2_times 0 0 2 (fun i => [i]) (fun (i : ℕ) => (i : ℚ) + 10) = some T ∧
      ∀ a b c, T a b c =
        (((List.range 2).filter
            (fun i => addressedB 0 0 ((fun i => [i]) i) a b c)).getLast?.map
          (fun (i : ℕ) => (i : ℚ) + 10)).getD 0 :=
  nd2_times_spec 0 0 2 (fun i => [i]) (fun (i : ℕ) => (i : ℚ) + 10) (fun _ _ => rfl)

theorem list_sum_gt_of_forall_gt :
    ∀ (l : List ℚ), l ≠ [] → (∀ x ∈ l, (2000 : ℚ) < x) → 2000 * l.length < l.sum
  | [], h, _ => absurd rfl h
  | [x], _, hx => by
      simpa using hx x (List.mem_singleton_self x)
  | x :: y :: t, _, hx => by
      have ih := list_sum_gt_of_forall_gt (y :: t) (List.cons_ne_nil y t)
        (fun z hz => hx z (List.mem_cons_of_mem x hz))
      have hxx := hx x (List.mem_cons_self x (y :: t))
      simp only [List.sum_cons, List.length_cons] at ih ⊢
      push_cast
      push_cast at ih
      linarith

theorem meanDiff?_pos {xs : List ℚ} {mu : ℚ} (h : meanDiff? xs = some mu) :
    2000 < mu := by
  unfold meanDiff? at h
  by_cases he : (nnDists xs).isEmpty
  · rw [if_pos he] at h
    exact Option.noConfusion h
  · rw [if_neg he] at h
    have hnil : nnDists xs ≠ [] := by
      intro hco
      rw [hco] at he
      exact he rfl
    have hall : ∀ x ∈ nnDists xs, (2000 : ℚ) < x := by
      intro x hx
      have := (List.mem_filter.mp hx).2
      simp only [Bool.and_eq_true, decide_eq_true_eq] at this
      exact this.1
    have hsum := list_sum_gt_of_forall_gt (nnDists xs) hnil hall
    have hlen : (0 : ℚ) < (nnDists xs).length := by
      have : 0 < (nnDists xs).length := List.length_pos.mpr hnil
      exact_mod_cast this
    have hmu : mu = (nnDists xs).sum / (nnDists xs).length := (Option.some.inj h).symm
    rw [hmu, lt_div_iff₀ hlen]
    linarith

theorem mem_laneMembers_iff {xs : List ℚ} {mu : ℚ} {i p : ℕ} :
    p ∈ laneMembers xs mu i ↔
      p < xs.length ∧ laneLo xs mu i < xs.getD p 0 ∧ xs.getD p 0 < laneHi xs mu i := by
  unfold laneMembers
  rw [List.mem_filter, List.mem_range]
  simp [and_assoc]

theorem laneMembers_disjoint {xs : List ℚ} {mu : ℚ} (hmu : 0 < mu) {i i' p : ℕ}
    (hne : i ≠ i') (h1 : p ∈ laneMembers xs mu i) : p ∉ laneMembers xs mu i' := by
  intro h2
  obtain ⟨-, h1l, h1r⟩ := mem_laneMembers_iff.mp h1
  obtain ⟨-, h2l, h2r⟩ := mem_laneMembers_iff.mp h2
  simp only [laneLo, laneHi] at h1l h1r h2l h2r
  rcases Nat.lt_or_ge i i' with hlt | hge
  · have hk : ((i : ℚ) + 1) ≤ (i' : ℚ) := by exact_mod_cast hlt
    have key : ((i : ℚ) + 1) * mu ≤ (i' : ℚ) * mu :=
      mul_le_mul_of_nonneg_right hk hmu.le
    linarith
  · have hlt : i' < i := by omega
    have hk : ((i' : ℚ) + 1) ≤ (i : ℚ) := by exact_mod_cast hlt
    have key : ((i' : ℚ) + 1) * mu ≤ (i : ℚ) * mu :=
      mul_le_mul_of_nonneg_right hk hmu.le
    linarith

theorem laneMembers_nodup (xs : List ℚ) (mu : ℚ) (i : ℕ) :
    (laneMembers xs mu i).Nodup :=
  List.Nodup.filter _ (List.nodup_range xs.length)

theorem laneMembers_lt {xs : List ℚ} {mu : ℚ} {i p : ℕ}
    (h : p ∈ laneMembers xs mu i) : p < xs.length :=
  (mem_laneMembers_iff.mp h).1

theorem laneYs_length (xs ys : List ℚ) (mu : ℚ) (i : ℕ) :
    (laneYs xs ys mu i).length = (laneMembers xs mu i).length := by
  unfold laneYs
  exact List.length_map _ _

theorem getD_mem {α : Type} {l : List α} {j : ℕ} (h : j < l.length) (d : α) :
    l.getD j d ∈ l := by
  rw [List.getD_eq_getElem _ _ h]
  exact List.getElem_mem h

theorem map_getD_range {α : Type} (l : List α) (d : α) :
    (List.range l.length).map (fun i => l.getD i d) = l := by
  apply List.ext_getElem
  · simp
  · intro i h1 h2
    simp only [List.getElem_map, List.getElem_range]
    exact List.getD_eq_getElem l d h2

theorem argsort_perm (keys : List ℚ) : (argsort keys).Perm (List.range keys.length) :=
  List.perm_insertionSort _ _

theorem laneSortInds_perm (keys : List ℚ) (iy : Bool) :
    (laneSortInds keys iy).Perm (List.range keys.length) := by
  unfold laneSortInds
  cases iy with
  | false => simpa using argsort_perm keys
  | true => simpa using (List.reverse_perm (argsort keys)).trans (argsort_perm keys)

theorem laneSortInds_length (keys : List ℚ) (iy : Bool) :
    (laneSortInds keys iy).length = keys.length := by
  have := (laneSortInds_perm keys iy).length_eq
  simpa using this

theorem laneSortInds_nodup (keys : List ℚ) (iy : Bool) :
    (laneSortInds keys iy).Nodup :=
  ((laneSortInds_perm keys iy).nodup_iff).mpr (List.nodup_range keys.length)

theorem laneSortInds_mem_lt {keys : List ℚ} {iy : Bool} {q : ℕ}
    (h : q ∈ laneSortInds keys iy) : q < keys.length :=
  List.mem_range.mp ((laneSortInds_perm keys iy).mem_iff.mp h)

theorem lanePerm_length (xs ys : List ℚ) (mu : ℚ) (iy : Bool) (i : ℕ) :
    (lanePerm xs ys mu iy i).length = (laneMembers xs mu i).length := by
  unfold lanePerm gather
  rw [List.length_map, laneSortInds_length, laneYs_length]

theorem lanePerm_perm (xs ys : List ℚ) (mu : ℚ) (iy : Bool) (i : ℕ) :
    (lanePerm xs ys mu iy i).Perm (laneMembers xs mu i) := by
  unfold lanePerm gather
  have h1 : (laneSortInds (laneYs xs ys mu i) iy).Perm
      (List.range (laneMembers xs mu i).length) := by
    have := laneSortInds_perm (laneYs xs ys mu i) iy
    rwa [laneYs_length] at this
  have h2 := h1.map (fun q => (laneMembers xs mu i).getD q 0)
  rwa [map_getD_range (laneMembers xs mu i) 0] at h2

theorem lanePerm_getD (xs ys : List ℚ) (mu : ℚ) (iy : Bool) (i j : ℕ)
    (hj : j < (lanePerm xs ys mu iy i).length) :
    (lanePerm xs ys mu iy i).getD j 0 =
      (laneMembers xs mu i).getD ((laneSortInds (laneYs xs ys mu i) iy).getD j 0) 0 := by
  unfold lanePerm gather at hj ⊢
  have hj2 : j < (laneSortInds (laneYs xs ys mu i) iy).length := by
    simpa using hj
  rw [List.getD_eq_getElem _ _ hj, List.getElem_map,
    List.getD_eq_getElem _ _ hj2]

theorem lanePerm_getD_mem (xs ys : List ℚ) (mu : ℚ) (iy : Bool) (i j : ℕ)
    (hj : j < (lanePerm xs ys mu iy i).length) :
    (lanePerm xs ys mu iy i).getD j 0 ∈ laneMembers xs mu i := by
  rw [lanePerm_getD xs ys mu iy i j hj]
  apply getD_mem
  have hj2 : j < (laneSortInds (laneYs xs ys mu i) iy).length := by
    unfold lanePerm gather at hj
    simpa using hj
  have : (laneSortInds (laneYs xs ys mu i) iy).getD j 0 ∈
      laneSortInds (laneYs xs ys mu i) iy := getD_mem hj2 0
  have := laneSortInds_mem_lt this
  rwa [laneYs_length] at this

theorem foldl_set_length {α : Type} :
    ∀ (ps : List (ℕ × α)) (arr : List α),
      (ps.foldl (fun a p => a.set p.1 p.2) arr).length = arr.length
  | [], _ => rfl
  | q :: ps, arr => by
      rw [List.foldl_cons, foldl_set_length ps, List.length_set]

theorem scatterIdx_length {α : Type} (arr : List α) (idx : List ℕ) (vals : List α) :
    (scatterIdx arr idx vals).length = arr.length :=
  foldl_set_length _ _

theorem getD_set_ne {α : Type} (arr : List α) (q p : ℕ) (v d : α) (h : q ≠ p) :
    (arr.set q v).getD p d = arr.getD p d := by
  rw [List.getD_eq_getElem?_getD, List.getD_eq_getElem?_getD, List.getElem?_set,
    if_neg h]

theorem scatterIdx_getD_not_mem {α : Type} :
    ∀ (idx : List ℕ) (vals arr : List α) (p : ℕ) (d : α), p ∉ idx →
      (scatterIdx arr idx vals).getD p d = arr.getD p d
  | [], _, _, _, _, _ => rfl
  | _ :: _, [], _, _, _, _ => rfl
  | i :: idx', v :: vals', arr, p, d, hp => by
      have h1 : p ∉ idx' := fun hx => hp (List.mem_cons_of_mem i hx)
      have h2 : i ≠ p := fun he => hp (he ▸ List.mem_cons_self i idx')
      show (scatterIdx (arr.set i v) idx' vals').getD p d = arr.getD p d
      rw [scatterIdx_getD_not_mem idx' vals' (arr.set i v) p d h1,
        getD_set_ne arr i p v d h2]

theorem scatterIdx_getD_hit {α : Type} :
    ∀ (idx : List ℕ) (vals arr : List α) (j : ℕ) (d : α),
      idx.Nodup → (∀ q ∈ idx, q < arr.length) →
      j < idx.length → j < vals.length →
      (scatterIdx arr idx vals).getD (idx.getD j 0) d = vals.getD j d
  | [], _, _, j, _, _, _, hj, _ => by simp at hj
  | _ :: _, [], _, j, _, _, _, _, hv => by simp at hv
  | i :: idx', v :: vals', arr, j, d, hnd, hlt, hj, hv => by
      show (scatterIdx (arr.set i v) idx' vals').getD ((i :: idx').getD j 0) d =
        (v :: vals').getD j d
      match j with
      | 0 =>
        have hni : i ∉ idx' := (List.nodup_cons.mp hnd).1
        have hi : i < arr.length := hlt i (List.mem_cons_self i idx')
        rw [List.getD_cons_zero, List.getD_cons_zero,
          scatterIdx_getD_not_mem idx' vals' (arr.set i v) i d hni,
          List.getD_eq_getElem?_getD, List.getElem?_set, if_pos rfl, if_pos hi]
        rfl
      | j + 1 =>
        have hnd' := (List.nodup_cons.mp hnd).2
        have hlt' : ∀ q ∈ idx', q < (arr.set i v).length := by
          rw [List.length_set]
          exact fun q hq => hlt q (List.mem_cons_of_mem i hq)
        rw [List.getD_cons_succ, List.getD_cons_succ]
        exact scatterIdx_getD_hit idx' vals' (arr.set i v) j d hnd' hlt'
          (by simpa using hj) (by simpa using hv)

theorem getD_replicate_none {α : Type} (n p : ℕ) :
    (List.replicate n (none : Option α)).getD p none = none := by
  rw [List.getD_eq_getElem?_getD, List.getElem?_replicate]
  rcases lt_or_ge p n with h | h
  · rw [if_pos h]
    rfl
  · rw [if_neg (by omega)]
    rfl

theorem laneLocalLabels_length (count : ℕ) (sortInds : List ℕ) (i : ℕ) :
    (laneLocalLabels count sortInds i).length = count := by
  unfold laneLocalLabels
  rw [scatterIdx_length, List.length_replicate]

theorem laneLocalLabels_getD (count : ℕ) (sortInds : List ℕ) (i j : ℕ)
    (hnd : sortInds.Nodup) (hlt : ∀ q ∈ sortInds, q < count)
    (hj : j < sortInds.length) (hjc : j < count) :
    (laneLocalLabels count sortInds i).getD (sortInds.getD j 0) none =
      some (mkLabel (i + 1) (j + 1)) := by
  unfold laneLocalLabels
  rw [scatterIdx_getD_hit sortInds _ _ j none hnd (by simpa using hlt) hj
    (by simpa using hjc)]
  rw [List.getD_eq_getElem _ _ (by simpa using hjc), List.getElem_map,
    List.getElem_range]

theorem applyLane_len (xs ys : List ℚ) (mu : ℚ) (iy : Bool)
    (L : List (Option String)) (m : ℕ) :
    (applyLane xs ys mu iy L m).length = L.length := by
  unfold applyLane
  exact scatterIdx_length _ _ _

theorem applyLane_not_mem (xs ys : List ℚ) (mu : ℚ) (iy : Bool)
    (L : List (Option String)) (m p : ℕ) (hp : p ∉ laneMembers xs mu m) :
    (applyLane xs ys mu iy L m).getD p none = L.getD p none := by
  unfold applyLane
  exact scatterIdx_getD_not_mem _ _ _ _ _ hp

theorem applyLane_hit (xs ys : List ℚ) (mu : ℚ) (iy : Bool)
    (L : List (Option String)) (m j : ℕ) (hlen : L.length = xs.length)
    (hj : j < (lanePerm xs ys mu iy m).length) :
    (applyLane xs ys mu iy L m).getD ((lanePerm xs ys mu iy m).getD j 0) none =
      some (mkLabel (m + 1) (j + 1)) := by
  unfold applyLane
  rw [lanePerm_getD xs ys mu iy m j hj]
  have hj2 : j < (laneSortInds (laneYs xs ys mu m) iy).length := by
    rw [laneSortInds_length, laneYs_length]
    rwa [lanePerm_length] at hj
  have hkmem : (laneSortInds (laneYs xs ys mu m) iy).getD j 0 ∈
      laneSortInds (laneYs xs ys mu m) iy := getD_mem hj2 0
  have hk : (laneSortInds (laneYs xs ys mu m) iy).getD j 0 <
      (laneMembers xs mu m).length := by
    have := laneSortInds_mem_lt hkmem
    rwa [laneYs_length] at this
  rw [scatterIdx_getD_hit (laneMembers xs mu m) _ L _ none
    (laneMembers_nodup xs mu m)
    (fun q hq => by
      rw [hlen]
      exact laneMembers_lt hq)
    hk
    (by rw [laneLocalLabels_length]; exact hk)]
  exact laneLocalLabels_getD (laneMembers xs mu m).length
    (laneSortInds (laneYs xs ys mu m) iy) m j
    (laneSortInds_nodup _ iy)
    (fun q hq => by
      have := laneSortInds_mem_lt hq
      rwa [laneYs_length] at this)
    hj2
    (by rwa [lanePerm_length] at hj)

theorem gridLabels_spec (xs ys : List ℚ) (mu : ℚ) (iy : Bool) (hmu : 0 < mu) :
    (gridLabels xs ys mu iy).length = xs.length ∧
    (∀ p, (∀ i, i < 10 → p ∉ laneMembers xs mu i) →
      (gridLabels xs ys mu iy).getD p none = none) ∧
    (∀ i, i < 10 → ∀ j, j < (lanePerm xs ys mu iy i).length →
      (gridLabels xs ys mu iy).getD ((lanePerm xs ys mu iy i).getD j 0) none =
        some (mkLabel (i + 1) (j + 1))) := by
  suffices h : ∀ m,
      ((List.range m).foldl (applyLane xs ys mu iy)
          (List.replicate xs.length none)).length = xs.length ∧
      (∀ p, (∀ i, i < m → p ∉ laneMembers xs mu i) →
        ((List.range m).foldl (applyLane xs ys mu iy)
          (List.replicate xs.length none)).getD p none = none) ∧
      (∀ i, i < m → ∀ j, j < (lanePerm xs ys mu iy i).length →
        ((List.range m).foldl (applyLane xs ys mu iy)
          (List.replicate xs.length none)).getD
            ((lanePerm xs ys mu iy i).getD j 0) none = some (mkLabel (i + 1) (j + 1))) by
    unfold gridLabels
    exact h 10
  intro m
  induction m with
  | zero =>
    refine ⟨by simp, ?_, ?_⟩
    · intro p _
      exact getD_replicate_none _ _
    · intro i hi
      exact absurd hi (by omega)
  | succ m ih =>
    obtain ⟨ihlen, ihnone, ihlane⟩ := ih
    rw [List.range_succ, List.foldl_append, List.foldl_cons, List.foldl_nil]
    refine ⟨?_, ?_, ?_⟩
    · rw [applyLane_len]
      exact ihlen
    · intro p hp
      rw [applyLane_not_mem xs ys mu iy _ m p (hp m (by omega))]
      exact ihnone p (fun i hi => hp i (by omega))
    · intro i hi j hj
      rcases Nat.lt_or_ge i m with him | him
      · have hq : (lanePerm xs ys mu iy i).getD j 0 ∈ laneMembers xs mu i :=
          lanePerm_getD_mem _ _ _ _ _ _ hj
        have hq' : (lanePerm xs ys mu iy i).getD j 0 ∉ laneMembers xs mu m :=
          laneMembers_disjoint hmu (by omega) hq
        rw [applyLane_not_mem xs ys mu iy _ m _ hq']
        exact ihlane i him j hj
      · have hieq : i = m := by omega
        subst hieq
        exact applyLane_hit xs ys mu iy _ i j ihlen hj

theorem laneYs_getD (xs ys : List ℚ) (mu : ℚ) (i q : ℕ)
    (hq : q < (laneMembers xs mu i).length) :
    (laneYs xs ys mu i).getD q 0 = ys.getD ((laneMembers xs mu i).getD q 0) 0 := by
  unfold laneYs
  have hq2 : q < ((laneMembers xs mu i).map (fun p => ys.getD p 0)).length := by
    simpa using hq
  rw [List.getD_eq_getElem _ _ hq2, List.getElem_map, List.getD_eq_getElem _ _ hq]

theorem gather_argsort_pairwise (ys keys : List ℚ) (mem : List ℕ)
    (hklen : keys.length = mem.length)
    (hkval : ∀ q, q < mem.length → keys.getD q 0 = ys.getD (mem.getD q 0) 0)
    (hdist : keys.Pairwise (· ≠ ·)) :
    (gather mem (argsort keys) 0).Pairwise (fun a b => ys.getD a 0 < ys.getD b 0) := by
  have hperm := argsort_perm keys
  have hnodup : (argsort keys).Nodup := hperm.nodup_iff.mpr (List.nodup_range _)
  haveI : IsTotal ℕ (fun a b => keys.getD a 0 ≤ keys.getD b 0) :=
    ⟨fun a b => le_total _ _⟩
  haveI : IsTrans ℕ (fun a b => keys.getD a 0 ≤ keys.getD b 0) :=
    ⟨fun a b c h1 h2 => le_trans h1 h2⟩
  have hsorted : (argsort keys).Pairwise (fun a b => keys.getD a 0 ≤ keys.getD b 0) :=
    List.sorted_insertionSort _ _
  have hmemlt : ∀ q ∈ argsort keys, q < mem.length := by
    intro q hq
    have := List.mem_range.mp (hperm.mem_iff.mp hq)
    omega
  have hinj : ∀ u v, u < mem.length → v < mem.length → u ≠ v →
      keys.getD u 0 ≠ keys.getD v 0 := by
    intro u v hu hv huv
    have hu' : u < keys.length := by omega
    have hv' : v < keys.length := by omega
    rw [List.getD_eq_getElem _ _ hu', List.getD_eq_getElem _ _ hv']
    rcases Nat.lt_or_ge u v with h | h
    · exact List.pairwise_iff_getElem.mp hdist u v hu' hv' h
    · have hvu : v < u := by omega
      exact (List.pairwise_iff_getElem.mp hdist v u hv' hu' hvu).symm
  unfold gather
  rw [List.pairwise_map, List.pairwise_iff_getElem]
  intro a b ha hb hab
  have hqa := hmemlt _ (List.getElem_mem ha)
  have hqb := hmemlt _ (List.getElem_mem hb)
  have hle : keys.getD (argsort keys)[a] 0 ≤ keys.getD (argsort keys)[b] 0 :=
    List.pairwise_iff_getElem.mp hsorted a b ha hb hab
  have hne : (argsort keys)[a] ≠ (argsort keys)[b] :=
    List.pairwise_iff_getElem.mp hnodup a b ha hb hab
  have hlt := lt_of_le_of_ne hle (hinj _ _ hqa hqb hne)
  rw [hkval _ hqa, hkval _ hqb] at hlt
  exact hlt

theorem lanePerm_sorted (xs ys : List ℚ) (mu : ℚ) (i : ℕ)
    (hdist : (laneYs xs ys mu i).Pairwise (· ≠ ·)) :
    (lanePerm xs ys mu false i).Pairwise (fun a b => ys.getD a 0 < ys.getD b 0) ∧
    (lanePerm xs ys mu true i).Pairwise (fun a b => ys.getD b 0 < ys.getD a 0) := by
  have hmain := gather_argsort_pairwise ys (laneYs xs ys mu i) (laneMembers xs mu i)
    (laneYs_length xs ys mu i) (fun q hq => laneYs_getD xs ys mu i q hq) hdist
  constructor
  · unfold lanePerm laneSortInds
    simpa using hmain
  · unfold lanePerm laneSortInds
    have hrev : gather (laneMembers xs mu i)
        (argsort (laneYs xs ys mu i)).reverse 0 =
        (gather (laneMembers xs mu i) (argsort (laneYs xs ys mu i)) 0).reverse := by
      unfold gather
      exact List.map_reverse _ _
    rw [if_pos rfl, hrev, List.pairwise_reverse]
    exact hmain

/-- Claim C6: whenever the grid resolver returns and the y coordinates are
    pairwise distinct within each candidate lane, the returned permutation
    is the concatenation, over the ten lanes in lane-center order, of each
    lane's member position indices, each lane block being a permutation of
    the lane's members that is strictly sorted by y coordinate (ascending,
    or descending when `invert_y` is set). -/
theorem get_position_names_and_inds_perm (pos : List (ℚ × ℚ)) (ix iy : Bool)
    (mu : ℚ) (res : GridResult)
    (hmu : meanDiff? (posXs pos ix) = some mu)
    (h : get_position_names_and_inds pos ix iy = some res)
    (hdist : ∀ i, i < 10 →
      (laneYs (posXs pos ix) (posYs pos ix) mu i).Pairwise (· ≠ ·)) :
    res.perm = ((List.range 10).map
        (lanePerm (posXs pos ix) (posYs pos ix) mu iy)).flatten ∧
    ∀ i, i < 10 →
      (lanePerm (posXs pos ix) (posYs pos ix) mu iy i).Perm
        (laneMembers (posXs pos ix) mu i) ∧
      (iy = false → (lanePerm (posXs pos ix) (posYs pos ix) mu iy i).Pairwise
        (fun a b => (posYs pos ix).getD a 0 < (posYs pos ix).getD b 0)) ∧
      (iy = true → (lanePerm (posXs pos ix) (posYs pos ix) mu iy i).Pairwise
        (fun a b => (posYs pos ix).getD b 0 < (posYs pos ix).getD a 0)) := by
  have hres : res = ⟨gridLabels (posXs pos ix) (posYs pos ix) mu iy,
      gridPerm (posXs pos ix) (posYs pos ix) mu iy⟩ := by
    unfold get_position_names_and_inds at h
    rw [hmu] at h
    exact (Option.some.inj h).symm
  subst hres
  refine ⟨rfl, ?_⟩
  intro i hi
  refine ⟨lanePerm_perm _ _ _ _ _, ?_, ?_⟩
  · intro hiy
    subst hiy
    exact (lanePerm_sorted _ _ mu i (hdist i hi)).1
  · intro hiy
    subst hiy
    exact (lanePerm_sorted _ _ mu i (hdist i hi)).2

/-- Claim C7, amended: every label the grid resolver assigns has the form
    `ch{k}-{row}` (not `lane{k}-{row}`) where `k` is the 1-based lane index
    and `row` is the 1-based position of the labelled index within the
    lane's sorted member list. -/
theorem get_position_names_label_form (pos : List (ℚ × ℚ)) (ix iy : Bool)
    (mu : ℚ) (res : GridResult)
    (hmu : meanDiff? (posXs pos ix) = some mu)
    (h : get_position_names_and_inds pos ix iy = some res) :
    ∀ p s, res.labels.getD p none = some s →
      ∃ i j, i < 10 ∧
        j < (lanePerm (posXs pos ix) (posYs pos ix) mu iy i).length ∧
        (lanePerm (posXs pos ix) (posYs pos ix) mu iy i).getD j 0 = p ∧
        s = mkLabel (i + 1) (j + 1) := by
  have hmupos : (0 : ℚ) < mu := lt_trans (by norm_num) (meanDiff?_pos hmu)
  obtain ⟨hlen, hnone, hlane⟩ :=
    gridLabels_spec (posXs pos ix) (posYs pos ix) mu iy hmupos
  have hres : res = ⟨gridLabels (posXs pos ix) (posYs pos ix) mu iy,
      gridPerm (posXs pos ix) (posYs pos ix) mu iy⟩ := by
    unfold get_position_names_and_inds at h
    rw [hmu] at h
    exact (Option.some.inj h).symm
  subst hres
  intro p s hps
  by_cases hall : ∀ i, i < 10 → p ∉ laneMembers (posXs pos ix) mu i
  · rw [hnone p hall] at hps
    exact Option.noConfusion hps
  · push_neg at hall
    obtain ⟨i, hi, hpin⟩ := hall
    have hpin' : p ∈ lanePerm (posXs pos ix) (posYs pos ix) mu iy i :=
      ((lanePerm_perm (posXs pos ix) (posYs pos ix) mu iy i).mem_iff).mpr hpin
    obtain ⟨j, hj, hpj⟩ := List.mem_iff_getElem.mp hpin'
    refine ⟨i, j, hi, hj, ?_, ?_⟩
    · rw [List.getD_eq_getElem _ _ hj]
      exact hpj
    · have hval := hlane i hi j hj
      rw [List.getD_eq_getElem _ _ hj, hpj] at hval
      rw [hps] at hval
      exact Option.some.inj hval

/-- Claim C7, counterexample: the resolver labels the first position of a
    two-lane synthetic grid `"ch1-1"`, and no lane/row pair renders that
    string in the spec's claimed `lane{k}-{row}` form. -/
theorem grid_labels_not_lane_form :
    (∃ res, get_position_names_and_inds [((0 : ℚ), (0 : ℚ)), ((3000 : ℚ), (0 : ℚ))]
        false false = some res ∧ res.labels.getD 0 none = some "ch1-1") ∧
    ¬ ∃ k j : ℕ, "ch1-1" = spec_lane_label k j := by
  constructor
  · refine ⟨⟨[some "ch1-1", some "ch2-1"], [0, 1]⟩, ?_, rfl⟩
    with_unfolding_all decide
  · rintro ⟨k, j, hk⟩
    have hd := congrArg String.data hk
    rw [spec_lane_label, String.data_append] at hd
    have h1 : ("ch1-1".data).head? = some 'c' := rfl
    rw [hd] at h1
    have h2 : ("lane".data ++ (toString k ++ ("-" ++ toString j)).data).head? =
        some 'l' := rfl
    rw [h1] at h2
    exact absurd h2 (by decide)

set_option maxRecDepth 2000 in
/-- Claim C6, witness: a synthetic two-lane grid with pitch 3000; the
    resolver returns permutation [0, 1, 2], lane blocks [0, 1] and [2]. -/
theorem get_position_names_and_inds_perm_witness :
    (GridResult.mk [some "ch1-1", some "ch1-2", some "ch2-1"] [0, 1, 2]).perm =
      ((List.range 10).map
        (lanePerm (posXs [((0 : ℚ), (0 : ℚ)), ((0 : ℚ), (10 : ℚ)), ((3000 : ℚ), (5 : ℚ))] false)
          (posYs [((0 : ℚ), (0 : ℚ)), ((0 : ℚ), (10 : ℚ)), ((3000 : ℚ), (5 : ℚ))] false) 3000 false)).flatten ∧
    ∀ i, i < 10 →
      (lanePerm (posXs [((0 : ℚ), (0 : ℚ)), ((0 : ℚ), (10 : ℚ)), ((3000 : ℚ), (5 : ℚ))] false)
          (posYs [((0 : ℚ), (0 : ℚ)), ((0 : ℚ), (10 : ℚ)), ((3000 : ℚ), (5 : ℚ))] false) 3000 false i).Perm
        (laneMembers (posXs [((0 : ℚ), (0 : ℚ)), ((0 : ℚ), (10 : ℚ)), ((3000 : ℚ), (5 : ℚ))] false) 3000 i) ∧
      (false = false → (lanePerm (posXs [((0 : ℚ), (0 : ℚ)), ((0 : ℚ), (10 : ℚ)), ((3000 : ℚ), (5 : ℚ))] false)
          (posYs [((0 : ℚ), (0 : ℚ)), ((0 : ℚ), (10 : ℚ)), ((3000 : ℚ), (5 : ℚ))] false) 3000 false i).Pairwise
        (fun a b => (posYs [((0 : ℚ), (0 : ℚ)), ((0 : ℚ), (10 : ℚ)), ((3000 : ℚ), (5 : ℚ))] false).getD a 0 < (posYs [((0 : ℚ), (0 : ℚ)), ((0 : ℚ), (10 : ℚ)), ((3000 : ℚ), (5 : ℚ))] false).getD b 0)) ∧
      (false = true → (lanePerm (posXs [((0 : ℚ), (0 : ℚ)), ((0 : ℚ), (10 : ℚ)), ((3000 : ℚ), (5 : ℚ))] false)
          (posYs [((0 : ℚ), (0 : ℚ)), ((0 : ℚ), (10 : ℚ)), ((3000 : ℚ), (5 : ℚ))] false) 3000 false i).Pairwise
        (fun a b => (posYs [((0 : ℚ), (0 : ℚ)), ((0 : ℚ), (10 : ℚ)), ((3000 : ℚ), (5 : ℚ))] false).getD b 0 < (posYs [((0 : ℚ), (0 : ℚ)), ((0 : ℚ), (10 : ℚ)), ((3000 : ℚ), (5 : ℚ))] false).getD a 0)) :=
  get_position_names_and_inds_perm
    [((0 : ℚ), (0 : ℚ)), ((0 : ℚ), (10 : ℚ)), ((3000 : ℚ), (5 : ℚ))]
    false false 3000
    ⟨[some "ch1-1", some "ch1-2", some "ch2-1"], [0, 1, 2]⟩
    (by with_unfolding_all rfl) (by with_unfolding_all decide)
    (by with_unfolding_all decide)

set_option maxRecDepth 2000 in
/-- Claim C7, witness for the amended theorem: position 0 of a two-lane
    synthetic grid carries label "ch1-1", i.e. lane 1, row 1. -/
theorem get_position_names_label_form_witness :
    ∃ i j, i < 10 ∧
      j < (lanePerm (posXs [((0 : ℚ), (0 : ℚ)), ((3000 : ℚ), (0 : ℚ))] false)
            (posYs [((0 : ℚ), (0 : ℚ)), ((3000 : ℚ), (0 : ℚ))] false) 3000 false i).length ∧
      (lanePerm (posXs [((0 : ℚ), (0 : ℚ)), ((3000 : ℚ), (0 : ℚ))] false)
          (posYs [((0 : ℚ), (0 : ℚ)), ((3000 : ℚ), (0 : ℚ))] false) 3000 false i).getD j 0 = 0 ∧
      "ch1-1" = mkLabel (i + 1) (j + 1) :=
  get_position_names_label_form [((0 : ℚ), (0 : ℚ)), ((3000 : ℚ), (0 : ℚ))] false false
    3000 ⟨[some "ch1-1", some "ch2-1"], [0, 1]⟩
    (by with_unfolding_all rfl) (by with_unfolding_all decide) 0 "ch1-1" rfl
